import Mathlib

/-!
Verification development for the DA:O conflict scanner.

The development shallowly embeds the two core components of the program:
the ERF archive reader (src/erf.rs) and the conflict scanner
(src/scanner.rs).  Strings are modelled as lists of characters
(`Str := List Char`), bytes as natural numbers reduced modulo 256 at the
point where the code reads them, files as byte lists, and the filesystem
seen by one scan as an explicit environment (`FS`): the sequence of
directory-walk items the `walkdir` iterator yields and a partial map from
paths to file contents.  The `HashMap<String, Vec<PathBuf>>` conflict
accumulator is modelled as a total function from keys to path lists, the
empty list standing for an absent key; the `HashMap<String, usize>`
name-lookup table of a parsed archive is modelled the same way with
`Option Nat` values.
-/

namespace DAOScan

/-- Strings of the model: Rust `String` / `&str` as a list of characters. -/
abbrev Str := List Char

/-- Rust `PathBuf` / `&Path`, modelled as its textual form with `/` as the
component separator; comparison of paths is character-lexicographic. -/
abbrev Path := Str

/-! ### Byte codec (src/erf.rs: `read_u32`, `decode_utf16le`) -/

/-- `read_u32`: little-endian u32 from exactly four bytes.  Bytes are
naturals reduced mod 256 where read (the Rust slice holds `u8`). -/
def readU32 (bytes : List Nat) : Nat :=
  match bytes with
  | [b0, b1, b2, b3] =>
      b0 % 256 + (b1 % 256) * 256 + (b2 % 256) * 65536 + (b3 % 256) * 16777216
  | _ => 0

/-- The `chunks_exact(2)` + `u16::from_le_bytes` step of `decode_utf16le`:
pair up bytes little-endian into 16-bit code units (a trailing odd byte is
dropped, as `chunks_exact` drops the remainder). -/
def toU16le : List Nat → List Nat
  | b0 :: b1 :: rest => (b0 % 256 + (b1 % 256) * 256) :: toU16le rest
  | _ => []

/-- The Unicode replacement character U+FFFD used by lossy decoding. -/
def replacementChar : Char := Char.ofNat 0xFFFD

/-- `String::from_utf16_lossy`: decode UTF-16 code units, combining valid
surrogate pairs and replacing unpaired surrogates with U+FFFD. -/
def utf16Lossy : List Nat → List Char
  | [] => []
  | u :: rest =>
    if u < 0xD800 ∨ 0xE000 ≤ u then
      Char.ofNat u :: utf16Lossy rest
    else if u < 0xDC00 then
      match rest with
      | v :: rest2 =>
        if 0xDC00 ≤ v ∧ v < 0xE000 then
          Char.ofNat (0x10000 + (u - 0xD800) * 0x400 + (v - 0xDC00)) :: utf16Lossy rest2
        else replacementChar :: utf16Lossy (v :: rest2)
      | [] => [replacementChar]
    else replacementChar :: utf16Lossy rest

/-- The trailing-NUL trim of `decode_utf16le` (`trim_end_matches('\0')`
applied when the decoded string ends with NUL): drop every trailing NUL. -/
def trimNulEnd (cs : List Char) : List Char :=
  ((cs.reverse.dropWhile fun c => c = Char.ofNat 0)).reverse

/-! ### ERF data model (src/erf.rs) -/

/-- `ErfVersion`: the two recognized container format revisions. -/
inductive ErfVersion where
  | V20
  | V22
deriving DecidableEq

/-- `ErfError`: the archive reader's error taxonomy.  The
`invalidResourceName` payload is the message string the Rust code formats
(for the empty-TOC-name case it names the record index). -/
inductive ErfError where
  | invalidHeader (expected found : Str)
  | unsupportedVersion (found : Str)
  | io
  | invalidResourceName (msg : Str)
  | invalidStringEncoding
deriving DecidableEq

/-- `ErfTocEntry`: one table-of-contents record. -/
structure ErfTocEntry where
  name : Str
  offset : Nat
  packed_length : Nat
  length : Nat
deriving DecidableEq

/-- `ErfFile`: a parsed archive.  `by_name` models the
`HashMap<String, usize>` lookup as a function to `Option Nat`. -/
structure ErfFile where
  version : ErfVersion
  year : Nat
  day : Nat
  module_id : Nat
  toc : List ErfTocEntry
  by_name : Str → Option Nat

/-- `read_exact`: take `n` bytes off the front of the stream, or fail with
an I/O error when the stream is shorter. -/
def readExact (n : Nat) (s : List Nat) : Except ErfError (List Nat × List Nat) :=
  if s.length < n then .error .io else .ok (s.take n, s.drop n)

/-- `decode_utf16le`: reject odd byte counts, otherwise decode code units
lossily and trim trailing NULs. -/
def decode_utf16le (bytes : List Nat) : Except ErfError Str :=
  if bytes.length % 2 ≠ 0 then .error .invalidStringEncoding
  else .ok (trimNulEnd (utf16Lossy (toU16le bytes)))

/-- ASCII lower-casing of one character, as Rust `u8::to_ascii_lowercase`. -/
def asciiLowerChar (c : Char) : Char :=
  if 65 ≤ c.toNat ∧ c.toNat ≤ 90 then Char.ofNat (c.toNat + 32) else c

/-- `str::to_ascii_lowercase`. -/
def toAsciiLower (s : Str) : Str := s.map asciiLowerChar

/-- Models `str::to_lowercase`.  The Rust function applies the Unicode
lowercase mapping; on the ASCII resource and file names this program
handles it coincides with the ASCII mapping, which is what the model
implements. -/
def rustToLower (s : Str) : Str := s.map asciiLowerChar

/-- One `by_name.insert(key, i)` of the parse loop (`HashMap::insert`
replaces any previous binding of the key). -/
def insertByName (m : Str → Option Nat) (key : Str) (i : Nat) : Str → Option Nat :=
  fun k => if k = key then some i else m k

/-- The `by_name` accumulation of the parse loop: starting from map `m` at
record index `i`, insert each remaining name lower-cased. -/
def buildByNameAux (m : Str → Option Nat) (i : Nat) : List Str → (Str → Option Nat)
  | [] => m
  | n :: rest => buildByNameAux (insertByName m (rustToLower n) i) (i + 1) rest

/-- The lookup table built by the parse loop over the full name sequence. -/
def buildByName (names : List Str) : Str → Option Nat :=
  buildByNameAux (fun _ => none) 0 names

/-- TOC record width per version: 76 bytes for V2.2, 72 for V2.0. -/
def entrySize (version : ErfVersion) : Nat :=
  if version = .V22 then 76 else 72

/-- The message the parse loop formats for an empty TOC name at index `i`. -/
def emptyNameMsg (i : Nat) : Str :=
  (s!"Empty resource name in TOC at index {i}").data

/-- The TOC-reading loop of `ErfFile::parse`: read `count` records starting
at record index `i`, returning the entries in file order and the remaining
stream. -/
def parseEntries (version : ErfVersion) : Nat → Nat → List Nat →
    Except ErfError (List ErfTocEntry × List Nat)
  | 0, _, s => .ok ([], s)
  | c + 1, i, s =>
    match readExact (entrySize version) s with
    | .error e => .error e
    | .ok (entryData, rest) =>
      match decode_utf16le (entryData.take 64) with
      | .error e => .error e
      | .ok name =>
        if name = [] then
          .error (.invalidResourceName (emptyNameMsg i))
        else
          let offset := readU32 ((entryData.drop 64).take 4)
          let packed_length := readU32 ((entryData.drop 68).take 4)
          let length :=
            if version = .V22 then readU32 ((entryData.drop 72).take 4) else packed_length
          match parseEntries version c (i + 1) rest with
          | .error e => .error e
          | .ok (restEntries, s2) =>
            .ok (⟨name, offset, packed_length, length⟩ :: restEntries, s2)

/-- `ErfFile::parse`: read the second 16-byte header record (file count,
year, day, and — V2.2 only — module id), then the TOC records; the lookup
table receives every entry's lower-cased name keyed by its record index. -/
def ErfFile.parse (s : List Nat) (version : ErfVersion) : Except ErfError ErfFile :=
  match readExact 16 s with
  | .error e => .error e
  | .ok (header, rest) =>
    let file_count := readU32 (header.take 4)
    let year := readU32 ((header.drop 4).take 4)
    let day := readU32 ((header.drop 8).take 4)
    let module_id := if version = .V22 then readU32 ((header.drop 12).take 4) else 0
    match parseEntries version file_count 0 rest with
    | .error e => .error e
    | .ok (toc, _) =>
      .ok ⟨version, year, day, module_id, toc, buildByName (toc.map ErfTocEntry.name)⟩

/-- `ErfFile::from_reader`: read and decode the 16-byte magic/version
header, validate it, then parse with the recognized version. -/
def ErfFile.from_reader (s : List Nat) : Except ErfError ErfFile :=
  match readExact 16 s with
  | .error e => .error e
  | .ok (header, rest) =>
    match decode_utf16le (header.take 8) with
    | .error e => .error e
    | .ok magic =>
      match decode_utf16le (header.drop 8) with
      | .error e => .error e
      | .ok version_str =>
        if magic = "ERF ".data then
          if version_str = "V2.0".data then ErfFile.parse rest .V20
          else if version_str = "V2.2".data then ErfFile.parse rest .V22
          else .error (.unsupportedVersion version_str)
        else
          .error (.invalidHeader "ERF ".data magic)

/-! ### Filesystem environment and archive opening -/

/-- One item yielded by the `WalkDir` iterator: a successfully enumerated
directory entry (its path and whether it is a regular file) or an
enumeration error (nonexistent root, permission failure, broken symlink). -/
inductive WalkItem where
  | ok (path : Path) (isFile : Bool)
  | err
deriving DecidableEq

/-- The filesystem as one scan observes it: the walk items the traversal
of the root yields, in traversal order, and the readable files' contents. -/
structure FS where
  walk : List WalkItem
  read : Path → Option (List Nat)

/-- The `anyhow` context layers `ErfFile::open` adds: either the
`File::open` failure or the `from_reader` failure, each tagged with the
offending path. -/
inductive OpenError where
  | openFailed (path : Path)
  | parseFailed (path : Path) (source : ErfError)
deriving DecidableEq

/-- `ErfFile::open` (named `openAt` because `open` is a Lean keyword):
open the file at `path` in the filesystem `fs` and parse it. -/
def ErfFile.openAt (fs : FS) (path : Path) : Except OpenError ErfFile :=
  match fs.read path with
  | none => .error (.openFailed path)
  | some bytes =>
    match ErfFile.from_reader bytes with
    | .error e => .error (.parseFailed path e)
    | .ok f => .ok f

/-- The failures of `ErfFile::get_resource`: name absent from the lookup
(`ErfError::InvalidResourceName` carrying the queried name) or the
seek/read on the underlying stream failing. -/
inductive GetResourceError where
  | invalidResourceName (name : Str)
  | readFailed
deriving DecidableEq

/-- `ErfFile::get_resource`: lower-case the queried name, look it up, seek
to the entry's offset and read exactly `length` bytes of the underlying
stream (modelled as the full byte contents `reader`). -/
def ErfFile.get_resource (f : ErfFile) (name : Str) (reader : List Nat) :
    Except GetResourceError (List Nat) :=
  match f.by_name (rustToLower name) with
  | none => .error (.invalidResourceName name)
  | some index =>
    let entry := f.toc.getD index ⟨[], 0, 0, 0⟩
    if entry.offset + entry.length ≤ reader.length then
      .ok ((reader.drop entry.offset).take entry.length)
    else
      .error .readFailed

/-! ### Conflict scanner (src/scanner.rs) -/

/-- `IGNORED_FILES`: the fixed exclusion list. -/
def IGNORED_FILES : List Str :=
  ["manifest.xml".data, "credits.txt".data, "readme.txt".data]

/-- `should_ignore`: compare the ASCII-lower-cased key against each
excluded name. -/
def should_ignore (name : Str) : Bool :=
  IGNORED_FILES.any fun f => f = toAsciiLower name

/-- `ScanError`: the scanner's error type, an archive failure tagged with
the offending path. -/
inductive ScanError where
  | erfError (path : Path) (source : OpenError)
deriving DecidableEq

/-- The conflict accumulator `HashMap<String, Vec<PathBuf>>`, as a total
function; the empty list stands for an absent key. -/
def Conflicts := Str → List Path

/-- `Conflicts::new()`. -/
def emptyConflicts : Conflicts := fun _ => []

/-- `conflicts.entry(key).or_default().push(p)`. -/
def addPath (m : Conflicts) (key : Str) (p : Path) : Conflicts :=
  fun k => if k = key then m k ++ [p] else m k

/-- Split a character list at every occurrence of the separator `c`. -/
def splitOnChar (c : Char) : List Char → List Str
  | [] => [[]]
  | x :: xs =>
    match splitOnChar c xs with
    | r :: rs => if x = c then [] :: r :: rs else (x :: r) :: rs
    | [] => if x = c then [[], []] else [[x]]

/-- `Path::file_name`: the last `/`-separated component; none for an empty
final component or the parent-directory component. -/
def fileName (p : Path) : Option Str :=
  match (splitOnChar '/' p).getLast? with
  | some [] => none
  | some s => if s = "..".data then none else some s
  | none => none

/-- `Path::extension`: the part of the file name after its last dot; none
when the name holds no dot or only a leading one. -/
def extension (p : Path) : Option Str :=
  match fileName p with
  | none => none
  | some f =>
    let parts := splitOnChar '.' f
    if parts.length ≤ 1 then none
    else if parts.length = 2 ∧ parts.headD [] = [] then none
    else parts.getLast?

/-- `str::eq_ignore_ascii_case`. -/
def eqIgnoreAsciiCase (a b : Str) : Bool :=
  toAsciiLower a = toAsciiLower b

/-- `Path::join` with a relative right-hand side. -/
def pathJoin (base rel : Path) : Path := base ++ '/' :: rel

/-- `Path::starts_with`: component-wise prefix; on the slash-separated
textual form this is equality with the base or extending it past a
separator. -/
def pathStartsWith (p base : Path) : Bool :=
  p = base ∨ (base ++ ['/']).isPrefixOf p

/-- `process_loose_file`: record the file under its bare file name. -/
def process_loose_file (path : Path) (m : Conflicts) : Conflicts :=
  match fileName path with
  | some n => addPath m n path
  | none => m

/-- `is_erf_file`: the extension case-insensitively equals `erf`. -/
def is_erf_file (path : Path) : Bool :=
  match extension path with
  | some ext => eqIgnoreAsciiCase ext "erf".data
  | none => false

/-- `process_erf_file`: open and parse the archive (tagging any failure
with the path); on success record the archive's path once per TOC entry,
keyed by the entry's name. -/
def process_erf_file (fs : FS) (path : Path) (m : Conflicts) :
    Except ScanError Conflicts :=
  match ErfFile.openAt fs path with
  | .error e => .error (.erfError path e)
  | .ok erf => .ok (erf.toc.foldl (fun m entry => addPath m entry.name path) m)

/-- The filtering stage of the walk: keep the path of every successfully
enumerated regular file (`filter_map(Result::ok)` then
`filter(is_file)`), in traversal order. -/
def walkFiles (items : List WalkItem) : List Path :=
  items.filterMap fun it =>
    match it with
    | .ok p true => some p
    | _ => none

/-- The body of the scan's `for_each`, with the warning channel made
explicit: a file under the override directory is recorded loose; otherwise
an `.erf` file is processed as an archive, a failure leaving the map
untouched and emitting a path-tagged warning; any other file is skipped. -/
def scanStep (fs : FS) (odir : Path) (acc : Conflicts × List ScanError) (path : Path) :
    Conflicts × List ScanError :=
  if pathStartsWith path odir then
    (process_loose_file path acc.1, acc.2)
  else if is_erf_file path then
    match process_erf_file fs path acc.1 with
    | .ok m => (m, acc.2)
    | .error e => (acc.1, acc.2 ++ [e])
  else acc

/-- The complete traversal loop over a list of file paths. -/
def scanCoreList (fs : FS) (odir : Path) (l : List Path)
    (acc : Conflicts × List ScanError) : Conflicts × List ScanError :=
  l.foldl (scanStep fs odir) acc

/-- The override subtree root: `bioware_dir.join("packages/core/override")`. -/
def overrideDir (bioware_dir : Path) : Path :=
  pathJoin bioware_dir "packages/core/override".data

/-- The accumulation phase of `scan_for_conflicts`: the raw map and the
warnings after walking the whole tree. -/
def scanCore (fs : FS) (bioware_dir : Path) : Conflicts × List ScanError :=
  scanCoreList fs (overrideDir bioware_dir) (walkFiles fs.walk) (emptyConflicts, [])

/-- `paths.sort()`: stable ascending sort; on a linear order any sort
producing an ascending permutation yields this list. -/
def sortPaths (l : List Path) : List Path :=
  List.insertionSort (· ≤ ·) l

/-- The post-processing of `scan_for_conflicts`: retain keys holding more
than one path and not excluded, then sort every retained list. -/
def finalizeConflicts (m : Conflicts) : Conflicts :=
  fun k =>
    if 1 < (m k).length ∧ should_ignore k = false then sortPaths (m k) else []

/-- `scan_for_conflicts`: walk the tree, accumulate, retain, sort, and
return the map; the function returns `Ok` on every input because the walk
drops enumeration errors (`filter_map(Result::ok)`). -/
def scan_for_conflicts (fs : FS) (bioware_dir : Path) :
    Except ScanError Conflicts :=
  .ok (finalizeConflicts (scanCore fs bioware_dir).1)

/-- The warnings printed to stderr during a scan, in emission order. -/
def scanWarnings (fs : FS) (bioware_dir : Path) : List ScanError :=
  (scanCore fs bioware_dir).2

/-! ### Concrete inputs used by witnesses and counterexamples -/

/-- Little-endian byte encoding of a 32-bit value. -/
def u32Bytes (n : Nat) : List Nat :=
  [n % 256, n / 256 % 256, n / 65536 % 256, n / 16777216 % 256]

/-- A fixed-width UTF-16LE field: encode the (BMP) characters and pad with
NUL bytes up to `width` bytes. -/
def utf16Field (s : Str) (width : Nat) : List Nat :=
  (s.flatMap fun c => [c.toNat % 256, c.toNat / 256 % 256]) ++
    List.replicate (width - 2 * s.length) 0

/-- A well-formed V2.0 container whose TOC declares the given names (all
offsets and lengths zero). -/
def mkV20Erf (names : List Str) : List Nat :=
  utf16Field "ERF ".data 8 ++ utf16Field "V2.0".data 8 ++
  u32Bytes names.length ++ u32Bytes 2024 ++ u32Bytes 1 ++ u32Bytes 0 ++
  (names.flatMap fun n => utf16Field n 64 ++ u32Bytes 0 ++ u32Bytes 0)

/-- A well-formed V2.2 container with one TOC entry whose packed length is
1 and whose logical length is 2. -/
def mkV22UnequalErf : List Nat :=
  utf16Field "ERF ".data 8 ++ utf16Field "V2.2".data 8 ++
  u32Bytes 1 ++ u32Bytes 2024 ++ u32Bytes 1 ++ u32Bytes 7 ++
  (utf16Field "x.gda".data 64 ++ u32Bytes 0 ++ u32Bytes 1 ++ u32Bytes 2)

/-- A 16-byte stream holding magic `"ERF "` and version `"V3.0"`. -/
def hdrV30 : List Nat :=
  utf16Field "ERF ".data 8 ++ utf16Field "V3.0".data 8

/-- The walk of a nonexistent root: `WalkDir` yields a single error item
and no entries; no file is readable. -/
def noRootFS : FS := ⟨[.err], fun _ => none⟩

/-- A tree whose override subtree holds two valid archives named `a.erf`
(each declaring the resource `x.gda`), exercising the override/archive
classification overlap. -/
def fsC2 : FS :=
  ⟨[.ok "root/packages/core/override/a.erf".data true,
    .ok "root/packages/core/override/sub/a.erf".data true],
   fun p =>
     if p = "root/packages/core/override/a.erf".data ∨
        p = "root/packages/core/override/sub/a.erf".data then
       some (mkV20Erf ["x.gda".data])
     else none⟩

/-- A tree with two loose `a.gda` overrides and one archive also declaring
`a.gda`, plus one walk error item. -/
def fsA : FS :=
  ⟨[.ok "root/packages/core/override/a.gda".data true,
    .ok "root/packages/core/override/sub/a.gda".data true,
    .ok "root/x.erf".data true,
    .err],
   fun p => if p = "root/x.erf".data then some (mkV20Erf ["a.gda".data]) else none⟩

/-- `fsA` with its first two walk items swapped: same tree, different
traversal order. -/
def fsASwapped : FS :=
  ⟨[.ok "root/packages/core/override/sub/a.gda".data true,
    .ok "root/packages/core/override/a.gda".data true,
    .ok "root/x.erf".data true,
    .err],
   fsA.read⟩

/-- A tree holding one unreadable `.erf` file (three stray bytes, so the
header read fails) next to a conflicting pair of loose files, and the same
tree with the broken archive absent. -/
def fsC6 : FS :=
  ⟨[.ok "root/bad.erf".data true,
    .ok "root/packages/core/override/a.gda".data true,
    .ok "root/packages/core/override/sub/a.gda".data true],
   fun p => if p = "root/bad.erf".data then some [1, 2, 3] else none⟩

/-- `fsC6` without the broken archive in the walk. -/
def fsC6Absent : FS :=
  ⟨[.ok "root/packages/core/override/a.gda".data true,
    .ok "root/packages/core/override/sub/a.gda".data true],
   fsC6.read⟩

/-- A loose override `Foo.gda` and an archive declaring `foo.gda`: the two
keys differ only in ASCII case. -/
def fsC10 : FS :=
  ⟨[.ok "root/packages/core/override/Foo.gda".data true,
    .ok "root/a.erf".data true],
   fun p => if p = "root/a.erf".data then some (mkV20Erf ["foo.gda".data]) else none⟩

/-- A V2.0 archive declaring the single resource `Foo.dat`. -/
def erfC7Bytes : List Nat := mkV20Erf ["Foo.dat".data]

/-- The parse of `erfC7Bytes`. -/
def erfC7 : ErfFile :=
  ⟨.V20, 2024, 1, 0, [⟨"Foo.dat".data, 0, 0, 0⟩], buildByName ["Foo.dat".data]⟩

/-- A V2.0 archive declaring `a.gda` twice, in two spellings that agree
after lower-casing. -/
def erfC9Bytes : List Nat := mkV20Erf ["a.gda".data, "A.GDA".data]

/-- The parse of `erfC9Bytes`. -/
def erfC9 : ErfFile :=
  ⟨.V20, 2024, 1, 0, [⟨"a.gda".data, 0, 0, 0⟩, ⟨"A.GDA".data, 0, 0, 0⟩],
   buildByName ["a.gda".data, "A.GDA".data]⟩

/-- The index of the last name in the list whose lower-cased form is `k`
(the index `buildByName`'s last-write-wins insertion leaves in the
lookup). -/
def lastIdx? (k : Str) : List Str → Option Nat
  | [] => none
  | n :: rest =>
    match lastIdx? k rest with
    | some j => some (j + 1)
    | none => if rustToLower n = k then some 0 else none

/-- The parsed TOC of a result, the empty list on failure. -/
def tocOf (r : Except ErfError ErfFile) : List ErfTocEntry :=
  match r with
  | .ok f => f.toc
  | .error _ => []

/-! ### Characterization of the accumulation phase

The walk loop only ever appends to per-key path lists, so the raw map at a
key is the concatenation, in traversal order, of each file's contribution
to that key, and the warning list is the concatenation of each file's
warnings.  These shapes drive the determinism and failure-isolation
proofs. -/

/-- The paths one archive's TOC adds for key `k`: its own path once per
entry named exactly `k`. -/
def tocContrib (toc : List ErfTocEntry) (p : Path) (k : Str) : List Path :=
  (toc.filter fun e => k = e.name).map fun _ => p

/-- The paths one walked file adds for key `k`. -/
def itemContrib (fs : FS) (odir : Path) (p : Path) (k : Str) : List Path :=
  if pathStartsWith p odir then
    match fileName p with
    | some n => if k = n then [p] else []
    | none => []
  else if is_erf_file p then
    match ErfFile.openAt fs p with
    | .ok erf => tocContrib erf.toc p k
    | .error _ => []
  else []

/-- The warnings one walked file emits. -/
def itemWarnings (fs : FS) (odir : Path) (p : Path) : List ScanError :=
  if pathStartsWith p odir then []
  else if is_erf_file p then
    match ErfFile.openAt fs p with
    | .ok _ => []
    | .error e => [.erfError p e]
  else []

lemma addPath_apply (m : Conflicts) (key p k : Str) :
    addPath m key p k = if k = key then m k ++ [p] else m k := rfl

lemma foldl_addPath (p : Path) (toc : List ErfTocEntry) (m : Conflicts) (k : Str) :
    (toc.foldl (fun m entry => addPath m entry.name p) m) k = m k ++ tocContrib toc p k := by
  induction toc generalizing m with
  | nil => simp [tocContrib]
  | cons e toc ih =>
    simp only [List.foldl_cons, ih, tocContrib, List.filter_cons]
    by_cases h : k = e.name
    · simp [h, addPath_apply, tocContrib]
    · simp [h, addPath_apply, tocContrib]

lemma scanStep_fst (fs : FS) (odir : Path) (acc : Conflicts × List ScanError)
    (p : Path) (k : Str) :
    (scanStep fs odir acc p).1 k = acc.1 k ++ itemContrib fs odir p k := by
  unfold scanStep itemContrib
  by_cases h1 : pathStartsWith p odir
  · simp only [h1, if_true]
    unfold process_loose_file
    cases hfn : fileName p with
    | none => simp
    | some n =>
      by_cases h2 : k = n
      · simp [h2, addPath_apply]
      · simp [h2, addPath_apply]
  · simp only [h1, if_false, Bool.false_eq_true]
    by_cases h2 : is_erf_file p
    · simp only [h2, if_true]
      unfold process_erf_file
      cases ho : ErfFile.openAt fs p with
      | error e => simp
      | ok erf => simp [foldl_addPath]
    · simp [h2]

lemma scanStep_snd (fs : FS) (odir : Path) (acc : Conflicts × List ScanError)
    (p : Path) :
    (scanStep fs odir acc p).2 = acc.2 ++ itemWarnings fs odir p := by
  unfold scanStep itemWarnings
  by_cases h1 : pathStartsWith p odir
  · simp [h1]
  · simp only [h1, if_false, Bool.false_eq_true]
    by_cases h2 : is_erf_file p
    · simp only [h2, if_true]
      unfold process_erf_file
      cases ho : ErfFile.openAt fs p with
      | error e => simp
      | ok erf => simp
    · simp [h2]

lemma scanCoreList_fst (fs : FS) (odir : Path) (l : List Path)
    (acc : Conflicts × List ScanError) (k : Str) :
    (scanCoreList fs odir l acc).1 k =
      acc.1 k ++ l.flatMap fun p => itemContrib fs odir p k := by
  induction l generalizing acc with
  | nil => simp [scanCoreList]
  | cons p l ih =>
    simp only [scanCoreList, List.foldl_cons, List.flatMap_cons] at *
    rw [ih, scanStep_fst, List.append_assoc]

lemma scanCoreList_snd (fs : FS) (odir : Path) (l : List Path)
    (acc : Conflicts × List ScanError) :
    (scanCoreList fs odir l acc).2 = acc.2 ++ l.flatMap (itemWarnings fs odir) := by
  induction l generalizing acc with
  | nil => simp [scanCoreList]
  | cons p l ih =>
    simp only [scanCoreList, List.foldl_cons, List.flatMap_cons] at *
    rw [ih, scanStep_snd, List.append_assoc]

lemma scanCore_fst (fs : FS) (dir : Path) (k : Str) :
    (scanCore fs dir).1 k =
      (walkFiles fs.walk).flatMap fun p => itemContrib fs (overrideDir dir) p k := by
  simp [scanCore, scanCoreList_fst, emptyConflicts]

lemma scanCore_snd (fs : FS) (dir : Path) :
    (scanCore fs dir).2 = (walkFiles fs.walk).flatMap (itemWarnings fs (overrideDir dir)) := by
  simp [scanCore, scanCoreList_snd]

/-! ### Sorting -/

lemma sortPaths_sorted (l : List Path) : List.Sorted (· ≤ ·) (sortPaths l) :=
  List.sorted_insertionSort _ l

lemma sortPaths_perm (l : List Path) : (sortPaths l).Perm l :=
  List.perm_insertionSort _ l

lemma sortPaths_length (l : List Path) : (sortPaths l).length = l.length :=
  (sortPaths_perm l).length_eq

lemma sortPaths_eq_of_perm {l1 l2 : List Path} (h : l1.Perm l2) :
    sortPaths l1 = sortPaths l2 :=
  List.eq_of_perm_of_sorted
    ((sortPaths_perm l1).trans (h.trans (sortPaths_perm l2).symm))
    (sortPaths_sorted l1) (sortPaths_sorted l2)

lemma finalizeConflicts_apply (m : Conflicts) (k : Str) :
    finalizeConflicts m k =
      if 1 < (m k).length ∧ should_ignore k = false then sortPaths (m k) else [] := rfl

/-! ### The archive lookup table -/

lemma buildByNameAux_apply (names : List Str) (m : Str → Option Nat) (i : Nat) (k : Str) :
    buildByNameAux m i names k =
      match lastIdx? k names with
      | some j => some (i + j)
      | none => m k := by
  induction names generalizing m i with
  | nil => simp [buildByNameAux, lastIdx?]
  | cons n rest ih =>
    simp only [buildByNameAux, lastIdx?, ih]
    cases h : lastIdx? k rest with
    | some j =>
      simp only [Option.some.injEq]
      omega
    | none =>
      simp only [insertByName]
      by_cases hk : k = rustToLower n
      · simp [hk]
      · have : ¬ rustToLower n = k := fun h => hk h.symm
        simp [hk, this]

lemma buildByName_apply (names : List Str) (k : Str) :
    buildByName names k =
      match lastIdx? k names with
      | some j => some j
      | none => none := by
  unfold buildByName
  rw [buildByNameAux_apply]
  cases lastIdx? k names <;> simp

lemma lastIdx?_isSome (k : Str) (names : List Str) :
    (lastIdx? k names).isSome = true ↔ k ∈ names.map rustToLower := by
  induction names with
  | nil => simp [lastIdx?]
  | cons n rest ih =>
    simp only [lastIdx?, List.map_cons, List.mem_cons]
    cases h : lastIdx? k rest with
    | some j =>
      have : k ∈ rest.map rustToLower := ih.mp (by simp [h])
      simp [this]
    | none =>
      have hnotin : k ∉ rest.map rustToLower := fun hc => by
        have := ih.mpr hc
        simp [h] at this
      by_cases hk : rustToLower n = k
      · simp [hk]
      · have : ¬ k = rustToLower n := fun hc => hk hc.symm
        simp [hk, this, hnotin]

lemma lastIdx?_getElem {k : Str} {names : List Str} {j : Nat}
    (h : lastIdx? k names = some j) :
    (names.map rustToLower)[j]? = some k ∧
      ∀ j', j < j' → (names.map rustToLower)[j']? ≠ some k := by
  induction names generalizing j with
  | nil => simp [lastIdx?] at h
  | cons n rest ih =>
    simp only [lastIdx?] at h
    cases h0 : lastIdx? k rest with
    | some j0 =>
      rw [h0] at h
      simp only [Option.some.injEq] at h
      subst h
      obtain ⟨hget, hlast⟩ := ih h0
      refine ⟨by simpa using hget, ?_⟩
      intro j' hj'
      match j', hj' with
      | j'' + 1, hj' =>
        simp only [List.map_cons, List.getElem?_cons_succ]
        exact hlast j'' (by omega)
    | none =>
      rw [h0] at h
      by_cases hk : rustToLower n = k
      · simp only [hk, if_true, Option.some.injEq] at h
        subst h
        refine ⟨by simp [hk], ?_⟩
        intro j' hj'
        match j', hj' with
        | j'' + 1, _ =>
          simp only [List.map_cons, List.getElem?_cons_succ]
          intro hc
          have hmem : k ∈ rest.map rustToLower := List.getElem?_mem hc
          have := (lastIdx?_isSome k rest).mpr hmem
          simp [h0] at this
      · simp [hk] at h

/-- `ErfFile::parse` installs the loop's lookup table. -/
lemma parse_by_name {s : List Nat} {v : ErfVersion} {f : ErfFile}
    (h : ErfFile.parse s v = .ok f) :
    f.by_name = buildByName (f.toc.map ErfTocEntry.name) := by
  unfold ErfFile.parse at h
  cases hre : readExact 16 s with
  | error e => rw [hre] at h; exact absurd h (by simp)
  | ok pr =>
    obtain ⟨header, rest⟩ := pr
    rw [hre] at h
    simp only [] at h
    cases hpe : parseEntries v (readU32 (header.take 4)) 0 rest with
    | error e => rw [hpe] at h; exact absurd h (by simp)
    | ok pr2 =>
      obtain ⟨toc, s2⟩ := pr2
      rw [hpe] at h
      simp only [Except.ok.injEq] at h
      rw [← h]

/-- `ErfFile::from_reader` succeeds only through `ErfFile::parse`. -/
lemma from_reader_eq_parse {s : List Nat} {f : ErfFile}
    (h : ErfFile.from_reader s = .ok f) :
    ∃ v, ErfFile.parse (s.drop 16) v = .ok f := by
  unfold ErfFile.from_reader at h
  cases hre : readExact 16 s with
  | error e => rw [hre] at h; exact absurd h (by simp)
  | ok pr =>
    obtain ⟨header, rest⟩ := pr
    rw [hre] at h
    have hrest : rest = s.drop 16 := by
      unfold readExact at hre
      by_cases hlen : s.length < 16
      · simp [hlen] at hre
      · simp [hlen] at hre
        exact hre.2.symm
    subst hrest
    simp only [] at h
    cases hm : decode_utf16le (header.take 8) with
    | error e => rw [hm] at h; exact absurd h (by simp)
    | ok magic =>
      rw [hm] at h
      cases hv : decode_utf16le (header.drop 8) with
      | error e => rw [hv] at h; exact absurd h (by simp)
      | ok version_str =>
        rw [hv] at h
        simp only [] at h
        by_cases h1 : magic = "ERF ".data
        · rw [if_pos h1] at h
          by_cases h2 : version_str = "V2.0".data
          · rw [if_pos h2] at h; exact ⟨.V20, h⟩
          · rw [if_neg h2] at h
            by_cases h3 : version_str = "V2.2".data
            · rw [if_pos h3] at h; exact ⟨.V22, h⟩
            · rw [if_neg h3] at h; exact absurd h (by simp)
        · rw [if_neg h1] at h; exact absurd h (by simp)

lemma from_reader_by_name {s : List Nat} {f : ErfFile}
    (h : ErfFile.from_reader s = .ok f) :
    f.by_name = buildByName (f.toc.map ErfTocEntry.name) := by
  obtain ⟨v, hv⟩ := from_reader_eq_parse h
  exact parse_by_name hv

/-! ### The TOC-reading loop -/

/-- The loop reads exactly the declared number of records. -/
lemma parseEntries_length {version : ErfVersion} {c i : Nat} {s : List Nat}
    {toc : List ErfTocEntry} {s2 : List Nat}
    (h : parseEntries version c i s = .ok (toc, s2)) : toc.length = c := by
  induction c generalizing i s toc s2 with
  | zero =>
    simp only [parseEntries, Except.ok.injEq, Prod.mk.injEq] at h
    simp [← h.1]
  | succ c ih =>
    simp only [parseEntries] at h
    cases hre : readExact (entrySize version) s with
    | error e => rw [hre] at h; exact absurd h (by simp)
    | ok pr =>
      obtain ⟨entryData, rest⟩ := pr
      rw [hre] at h
      simp only [] at h
      cases hdec : decode_utf16le (entryData.take 64) with
      | error e => rw [hdec] at h; exact absurd h (by simp)
      | ok name =>
        rw [hdec] at h
        simp only [] at h
        by_cases hname : name = []
        · rw [if_pos hname] at h; exact absurd h (by simp)
        · rw [if_neg hname] at h
          cases hpe : parseEntries version c (i + 1) rest with
          | error e => rw [hpe] at h; exact absurd h (by simp)
          | ok pr2 =>
            obtain ⟨restEntries, s3⟩ := pr2
            rw [hpe] at h
            simp only [Except.ok.injEq, Prod.mk.injEq] at h
            have := ih hpe
            rw [← h.1]
            simp [this]

/-- In a V2.0 record the single 32-bit length fills both length fields. -/
lemma parseEntries_V20_lengths {c i : Nat} {s : List Nat}
    {toc : List ErfTocEntry} {s2 : List Nat}
    (h : parseEntries .V20 c i s = .ok (toc, s2)) :
    ∀ e ∈ toc, e.packed_length = e.length := by
  induction c generalizing i s toc s2 with
  | zero =>
    simp only [parseEntries, Except.ok.injEq, Prod.mk.injEq] at h
    rw [← h.1]
    intro e he
    exact absurd he (List.not_mem_nil e)
  | succ c ih =>
    simp only [parseEntries] at h
    cases hre : readExact (entrySize .V20) s with
    | error e => rw [hre] at h; exact absurd h (by simp)
    | ok pr =>
      obtain ⟨entryData, rest⟩ := pr
      rw [hre] at h
      simp only [] at h
      cases hdec : decode_utf16le (entryData.take 64) with
      | error e => rw [hdec] at h; exact absurd h (by simp)
      | ok name =>
        rw [hdec] at h
        simp only [] at h
        by_cases hname : name = []
        · rw [if_pos hname] at h; exact absurd h (by simp)
        · rw [if_neg hname] at h
          cases hpe : parseEntries .V20 c (i + 1) rest with
          | error e => rw [hpe] at h; exact absurd h (by simp)
          | ok pr2 =>
            obtain ⟨restEntries, s3⟩ := pr2
            rw [hpe] at h
            simp only [Except.ok.injEq, Prod.mk.injEq] at h
            rw [← h.1]
            intro e he
            rcases List.mem_cons.mp he with heq | hmem
            · subst heq; rfl
            · exact ih hpe e hmem

lemma parse_toc_of_ok {s : List Nat} {v : ErfVersion} {f : ErfFile}
    (h : ErfFile.parse s v = .ok f) : tocOf (ErfFile.parse s v) = f.toc := by
  rw [h]; rfl

/-! ### Scan results depend on the filesystem only through `read` -/

lemma openAt_congr {fs1 fs2 : FS} (h : fs1.read = fs2.read) (p : Path) :
    ErfFile.openAt fs1 p = ErfFile.openAt fs2 p := by
  unfold ErfFile.openAt
  rw [h]

lemma itemContrib_congr {fs1 fs2 : FS} (h : fs1.read = fs2.read)
    (odir p : Path) (k : Str) :
    itemContrib fs1 odir p k = itemContrib fs2 odir p k := by
  unfold itemContrib
  rw [openAt_congr h]

lemma itemWarnings_congr {fs1 fs2 : FS} (h : fs1.read = fs2.read)
    (odir p : Path) :
    itemWarnings fs1 odir p = itemWarnings fs2 odir p := by
  unfold itemWarnings
  rw [openAt_congr h]

/-- `ErfFile::parse` draws the TOC from the record-reading loop. -/
lemma parse_entries_of_ok {s : List Nat} {v : ErfVersion} {f : ErfFile}
    (h : ErfFile.parse s v = .ok f) :
    ∃ c s2, parseEntries v c 0 (s.drop 16) = .ok (f.toc, s2) := by
  unfold ErfFile.parse at h
  cases hre : readExact 16 s with
  | error e => rw [hre] at h; exact absurd h (by simp)
  | ok pr =>
    obtain ⟨header, rest⟩ := pr
    have hrest : rest = s.drop 16 := by
      unfold readExact at hre
      by_cases hl : s.length < 16
      · simp [hl] at hre
      · simp [hl] at hre
        exact hre.2.symm
    rw [hre] at h
    simp only [] at h
    cases hpe : parseEntries v (readU32 (header.take 4)) 0 rest with
    | error e => rw [hpe] at h; exact absurd h (by simp)
    | ok pr2 =>
      obtain ⟨toc, s2⟩ := pr2
      rw [hpe] at h
      simp only [Except.ok.injEq] at h
      subst h
      rw [hrest] at hpe
      exact ⟨readU32 (header.take 4), s2, hpe⟩

/-! ### Claim C1 -/

/-- Claim C1 is false as stated: for the filesystem of a nonexistent root
(whose traversal yields a single enumeration error and no entries),
`scan_for_conflicts` does not fail — it returns `Ok`. -/
theorem C1_counterexample :
    (scan_for_conflicts noRootFS "root".data).isOk = true := rfl

/-- Claim C1 (amended): `scan_for_conflicts` never fails, on any root; the
walk drops every enumeration error, so a root that does not exist or
cannot be opened yields the empty conflict map rather than an error. -/
theorem C1_scan_never_fails (fs : FS) (dir : Path) :
    (scan_for_conflicts fs dir).isOk = true ∧
    (walkFiles fs.walk = [] → scan_for_conflicts fs dir = .ok fun _ => []) := by
  refine ⟨rfl, fun hw => ?_⟩
  unfold scan_for_conflicts
  congr 1
  funext k
  rw [finalizeConflicts_apply, scanCore_fst, hw]
  simp

/-- Witness for the amended claim C1 at the nonexistent-root filesystem. -/
theorem C1_witness :
    (scan_for_conflicts noRootFS "root".data).isOk = true ∧
    scan_for_conflicts noRootFS "root".data = .ok fun _ => [] :=
  ⟨(C1_scan_never_fails noRootFS "root".data).1,
   (C1_scan_never_fails noRootFS "root".data).2 rfl⟩

/-! ### Claim C2 -/

/-- Claim C2 is false as stated: in `fsC2` the file
`root/packages/core/override/a.erf` lies in the override subtree, has the
archive extension, and is a well-formed archive declaring `x.gda`; yet the
scan keys it by its bare file name (`a.erf` gains both paths) and its TOC
name `x.gda` never becomes a key. -/
theorem C2_counterexample :
    is_erf_file "root/packages/core/override/a.erf".data = true ∧
    pathStartsWith "root/packages/core/override/a.erf".data
      (overrideDir "root".data) = true ∧
    (ErfFile.openAt fsC2 "root/packages/core/override/a.erf".data).toOption.map
      (fun f => f.toc.map ErfTocEntry.name) = some ["x.gda".data] ∧
    scan_for_conflicts fsC2 "root".data =
      .ok (finalizeConflicts (scanCore fsC2 "root".data).1) ∧
    finalizeConflicts (scanCore fsC2 "root".data).1 "x.gda".data = [] ∧
    finalizeConflicts (scanCore fsC2 "root".data).1 "a.erf".data =
      ["root/packages/core/override/a.erf".data,
       "root/packages/core/override/sub/a.erf".data] :=
  ⟨by decide, by decide, by decide, rfl, by decide, by decide⟩

/-- Claim C2 (amended): the classification precedence is the reverse of
the claim's — a file inside the override subtree is always processed as a
loose file (its bare file name becomes the key), even when it has the
archive extension; the archive branch is reached only outside the
override subtree. -/
theorem C2_override_precedence (fs : FS) (odir p : Path)
    (acc : Conflicts × List ScanError)
    (h1 : pathStartsWith p odir = true) (_h2 : is_erf_file p = true) :
    scanStep fs odir acc p = (process_loose_file p acc.1, acc.2) := by
  unfold scanStep
  simp [h1]

/-- Witness for the amended claim C2 at the override-archive file of
`fsC2`. -/
theorem C2_witness :
    scanStep fsC2 (overrideDir "root".data) (emptyConflicts, [])
        "root/packages/core/override/a.erf".data =
      (process_loose_file "root/packages/core/override/a.erf".data emptyConflicts,
       []) :=
  C2_override_precedence fsC2 (overrideDir "root".data) _ _ (by decide) (by decide)

/-! ### Claim C3 -/

/-- Claim C3: every key present in a returned conflict map carries at
least two paths, and its ASCII-lower-cased form is none of the excluded
names `manifest.xml`, `credits.txt`, `readme.txt` — excluded names are
dropped even with two or more accumulated paths. -/
theorem C3_conflict_map_invariants (fs : FS) (dir : Path) (m : Conflicts)
    (k : Str) (hm : scan_for_conflicts fs dir = .ok m) (hk : m k ≠ []) :
    2 ≤ (m k).length ∧
    toAsciiLower k ≠ "manifest.xml".data ∧
    toAsciiLower k ≠ "credits.txt".data ∧
    toAsciiLower k ≠ "readme.txt".data := by
  simp only [scan_for_conflicts, Except.ok.injEq] at hm
  subst hm
  rw [finalizeConflicts_apply] at hk ⊢
  by_cases hc : 1 < ((scanCore fs dir).1 k).length ∧ should_ignore k = false
  · rw [if_pos hc]
    have hig := hc.2
    simp only [should_ignore, IGNORED_FILES, List.any_cons, List.any_nil,
      Bool.or_eq_false_iff, decide_eq_false_iff_not] at hig
    refine ⟨?_, fun h => hig.1 h.symm, fun h => hig.2.1 h.symm,
      fun h => hig.2.2.1 h.symm⟩
    rw [sortPaths_length]
    omega
  · rw [if_neg hc] at hk
    exact absurd rfl hk

/-- Witness for claim C3 at the key `a.gda` of the `fsA` scan. -/
theorem C3_witness :
    2 ≤ ((finalizeConflicts (scanCore fsA "root".data).1) "a.gda".data).length ∧
    toAsciiLower "a.gda".data ≠ "manifest.xml".data ∧
    toAsciiLower "a.gda".data ≠ "credits.txt".data ∧
    toAsciiLower "a.gda".data ≠ "readme.txt".data :=
  C3_conflict_map_invariants fsA "root".data _ "a.gda".data rfl (by decide)

/-! ### Claim C4 -/

/-- Claim C4: every path list of a returned conflict map is sorted
ascending (lexicographically), and two scans of the same unchanged tree —
the same readable contents, the walk items in any traversal order —
return equal conflict maps. -/
theorem C4_sorted_and_deterministic (fs1 fs2 : FS) (dir : Path) (m : Conflicts)
    (k : Str) (hm : scan_for_conflicts fs1 dir = .ok m)
    (hperm : fs1.walk.Perm fs2.walk) (hread : fs1.read = fs2.read) :
    List.Sorted (· ≤ ·) (m k) ∧
    scan_for_conflicts fs1 dir = scan_for_conflicts fs2 dir := by
  simp only [scan_for_conflicts, Except.ok.injEq] at hm
  subst hm
  have hpk : ∀ k', ((scanCore fs1 dir).1 k').Perm ((scanCore fs2 dir).1 k') := by
    intro k'
    rw [scanCore_fst, scanCore_fst]
    have hfun : (fun p => itemContrib fs1 (overrideDir dir) p k') =
        fun p => itemContrib fs2 (overrideDir dir) p k' :=
      funext fun p => itemContrib_congr hread (overrideDir dir) p k'
    rw [hfun]
    exact (hperm.filterMap _).flatMap_right _
  constructor
  · rw [finalizeConflicts_apply]
    by_cases hc : 1 < ((scanCore fs1 dir).1 k).length ∧ should_ignore k = false
    · rw [if_pos hc]; exact sortPaths_sorted _
    · rw [if_neg hc]; exact List.sorted_nil
  · unfold scan_for_conflicts
    congr 1
    funext k'
    rw [finalizeConflicts_apply, finalizeConflicts_apply]
    have hlen := (hpk k').length_eq
    by_cases hc : 1 < ((scanCore fs1 dir).1 k').length ∧ should_ignore k' = false
    · rw [if_pos hc, if_pos (by rw [← hlen]; exact hc)]
      exact sortPaths_eq_of_perm (hpk k')
    · rw [if_neg hc, if_neg (by rw [← hlen]; exact hc)]

/-- Witness for claim C4: the `fsA` tree walked in two different orders. -/
theorem C4_witness :
    List.Sorted (· ≤ ·)
      ((finalizeConflicts (scanCore fsA "root".data).1) "a.gda".data) ∧
    scan_for_conflicts fsA "root".data =
      scan_for_conflicts fsASwapped "root".data :=
  C4_sorted_and_deterministic fsA fsASwapped "root".data _ "a.gda".data rfl
    (List.Perm.swap _ _ _) rfl

/-! ### Claim C5 -/

/-- Claim C5: when the decoded 8-byte magic is not `"ERF "`, opening fails
with a header-mismatch error carrying the expected and found strings; when
the magic matches but the decoded version is neither `"V2.0"` nor
`"V2.2"`, opening fails with an unsupported-version error carrying the
found string; otherwise parsing proceeds with the recognized version. -/
theorem C5_header_validation (s : List Nat) (magic version_str : Str)
    (h16 : 16 ≤ s.length)
    (hm : decode_utf16le ((s.take 16).take 8) = .ok magic)
    (hv : decode_utf16le ((s.take 16).drop 8) = .ok version_str) :
    (magic ≠ "ERF ".data →
      ErfFile.from_reader s = .error (.invalidHeader "ERF ".data magic)) ∧
    (magic = "ERF ".data → version_str ≠ "V2.0".data → version_str ≠ "V2.2".data →
      ErfFile.from_reader s = .error (.unsupportedVersion version_str)) ∧
    (magic = "ERF ".data → version_str = "V2.0".data →
      ErfFile.from_reader s = ErfFile.parse (s.drop 16) .V20) ∧
    (magic = "ERF ".data → version_str = "V2.2".data →
      ErfFile.from_reader s = ErfFile.parse (s.drop 16) .V22) := by
  have hre : readExact 16 s = .ok (s.take 16, s.drop 16) := by
    unfold readExact
    rw [if_neg (by omega)]
  have hfr : ErfFile.from_reader s =
      if magic = "ERF ".data then
        if version_str = "V2.0".data then ErfFile.parse (s.drop 16) .V20
        else if version_str = "V2.2".data then ErfFile.parse (s.drop 16) .V22
        else .error (.unsupportedVersion version_str)
      else .error (.invalidHeader "ERF ".data magic) := by
    unfold ErfFile.from_reader
    rw [hre]
    simp only []
    rw [hm, hv]
  refine ⟨fun h1 => ?_, fun h1 h2 h3 => ?_, fun h1 h2 => ?_, fun h1 h2 => ?_⟩
  · rw [hfr, if_neg h1]
  · rw [hfr, if_pos h1, if_neg h2, if_neg h3]
  · rw [hfr, if_pos h1, if_pos h2]
  · rw [hfr, if_pos h1, if_neg (by rw [h2]; decide), if_pos h2]

/-- Witness for claim C5: the header with magic `"ERF "` and version
`"V3.0"` fails with an unsupported-version error carrying `"V3.0"`. -/
theorem C5_witness :
    ErfFile.from_reader hdrV30 = .error (.unsupportedVersion "V3.0".data) :=
  (C5_header_validation hdrV30 "ERF ".data "V3.0".data (by decide) rfl
    rfl).2.1 rfl (by decide) (by decide)

/-! ### Claim C6 -/

/-- Claim C6: an archive that fails to open or parse does not abort the
scan — the failure surfaces as a warning tagged with the archive's path
and wrapping the reader's error, and the returned map is exactly the map
of the same tree with that file absent (the failed archive contributes
nothing). -/
theorem C6_failed_archive_isolated (fs fs' : FS) (dir p : Path) (e : OpenError)
    (l1 l2 : List Path)
    (hout : pathStartsWith p (overrideDir dir) = false)
    (herf : is_erf_file p = true)
    (hfail : ErfFile.openAt fs p = .error e)
    (hw : walkFiles fs.walk = l1 ++ p :: l2)
    (hw' : walkFiles fs'.walk = l1 ++ l2)
    (hread : fs.read = fs'.read) :
    ScanError.erfError p e ∈ scanWarnings fs dir ∧
    scan_for_conflicts fs dir = scan_for_conflicts fs' dir := by
  have hwarnp : itemWarnings fs (overrideDir dir) p = [.erfError p e] := by
    unfold itemWarnings
    simp [hout, herf, hfail]
  constructor
  · unfold scanWarnings
    rw [scanCore_snd, hw]
    exact List.mem_flatMap.mpr ⟨p, by simp, by rw [hwarnp]; simp⟩
  · have hmap : ∀ k, (scanCore fs dir).1 k = (scanCore fs' dir).1 k := by
      intro k
      rw [scanCore_fst, scanCore_fst, hw, hw']
      have hfun : (fun q => itemContrib fs (overrideDir dir) q k) =
          fun q => itemContrib fs' (overrideDir dir) q k :=
        funext fun q => itemContrib_congr hread (overrideDir dir) q k
      rw [hfun]
      have hfail' : ErfFile.openAt fs' p = .error e := by
        rw [← openAt_congr hread p]; exact hfail
      have hitem' : itemContrib fs' (overrideDir dir) p k = [] := by
        unfold itemContrib
        simp [hout, herf, hfail']
      simp only [List.flatMap_append, List.flatMap_cons, hitem', List.nil_append]
    unfold scan_for_conflicts
    congr 1
    funext k
    rw [finalizeConflicts_apply, finalizeConflicts_apply, hmap k]

/-- Witness for claim C6: `fsC6` holds the three-byte file `root/bad.erf`,
whose header read fails with an I/O error; the scan of `fsC6` equals the
scan of the same tree without it. -/
theorem C6_witness :
    ScanError.erfError "root/bad.erf".data
        (.parseFailed "root/bad.erf".data .io) ∈ scanWarnings fsC6 "root".data ∧
    scan_for_conflicts fsC6 "root".data =
      scan_for_conflicts fsC6Absent "root".data :=
  C6_failed_archive_isolated fsC6 fsC6Absent "root".data "root/bad.erf".data
    (.parseFailed "root/bad.erf".data .io)
    [] ["root/packages/core/override/a.gda".data,
        "root/packages/core/override/sub/a.gda".data]
    (by decide) (by decide) rfl rfl rfl rfl

/-! ### Claim C7 -/

/-- Claim C7: TOC name lookup is case-insensitive — for every parsed
archive, every entry of its TOC, and any spelling of that entry's name
agreeing with it up to (lower-)casing, `get_resource` resolves the lookup
(the key is present) and returns the same result as the original
spelling, over any underlying stream. -/
theorem C7_case_insensitive_lookup (s : List Nat) (f : ErfFile)
    (hf : ErfFile.from_reader s = .ok f) (e : ErfTocEntry) (he : e ∈ f.toc)
    (n : Str) (hn : rustToLower n = rustToLower e.name) (reader : List Nat) :
    (f.by_name (rustToLower n)).isSome = true ∧
    f.get_resource n reader = f.get_resource e.name reader := by
  have hbn := from_reader_by_name hf
  have hsome : (f.by_name (rustToLower e.name)).isSome = true := by
    rw [hbn, buildByName_apply]
    have hmem : rustToLower e.name ∈ (f.toc.map ErfTocEntry.name).map rustToLower :=
      List.mem_map.mpr ⟨e.name, List.mem_map.mpr ⟨e, he, rfl⟩, rfl⟩
    have his := (lastIdx?_isSome (rustToLower e.name)
      (f.toc.map ErfTocEntry.name)).mpr hmem
    cases h : lastIdx? (rustToLower e.name) (f.toc.map ErfTocEntry.name) with
    | some j => simp
    | none => rw [h] at his; simp at his
  obtain ⟨idx, hidx⟩ := Option.isSome_iff_exists.mp hsome
  refine ⟨by rw [hn]; exact hsome, ?_⟩
  unfold ErfFile.get_resource
  rw [hn, hidx]

/-- Witness for claim C7: in the archive `erfC7` the spelling `FOO.DAT`
resolves like the declared `Foo.dat`. -/
theorem C7_witness :
    (erfC7.by_name (rustToLower "FOO.DAT".data)).isSome = true ∧
    erfC7.get_resource "FOO.DAT".data [9, 9] =
      erfC7.get_resource "Foo.dat".data [9, 9] :=
  C7_case_insensitive_lookup erfC7Bytes erfC7 rfl ⟨"Foo.dat".data, 0, 0, 0⟩
    (by decide) "FOO.DAT".data (by decide) [9, 9]

/-! ### Claim C8 -/

/-- Claim C8: every TOC entry parsed in the V2.0 format reports equal
packed and logical lengths (the single 32-bit length fills both fields),
while a V2.2 archive reads them from separate 32-bit fields and can
report them unequal — as the container `mkV22UnequalErf`, whose one entry
parses with packed length 1 and logical length 2, shows. -/
theorem C8_v20_lengths_equal :
    (∀ (s : List Nat) (e : ErfTocEntry), e ∈ tocOf (ErfFile.parse s .V20) →
      e.packed_length = e.length) ∧
    (ErfFile.from_reader mkV22UnequalErf).toOption.map
      (fun f => f.toc.map fun e => (e.packed_length, e.length)) = some [(1, 2)] := by
  refine ⟨?_, by decide⟩
  intro s e he
  unfold tocOf at he
  cases hp : ErfFile.parse s .V20 with
  | error err => rw [hp] at he; exact absurd he (List.not_mem_nil e)
  | ok f =>
    rw [hp] at he
    obtain ⟨c, s2, hpe⟩ := parse_entries_of_ok hp
    exact parseEntries_V20_lengths hpe e he

/-- Witness for claim C8 at a concrete V2.0 parse. -/
theorem C8_witness :
    (⟨"x.gda".data, 0, 0, 0⟩ : ErfTocEntry).packed_length =
      (⟨"x.gda".data, 0, 0, 0⟩ : ErfTocEntry).length :=
  C8_v20_lengths_equal.1 ((mkV20Erf ["x.gda".data]).drop 16)
    ⟨"x.gda".data, 0, 0, 0⟩ (by decide)

/-! ### Claim C9 -/

/-- Claim C9: after a successful parse the lookup table is inhabited at
exactly the lower-cased TOC entry names; a key maps to the index of the
last entry bearing it (no later entry's lower-cased name equals the key),
and the ordered TOC itself retains one entry per declared record,
duplicates included. -/
theorem C9_lookup_invariant (s : List Nat) (f : ErfFile)
    (hf : ErfFile.from_reader s = .ok f) (k : Str) :
    ((f.by_name k).isSome = true ↔ k ∈ f.toc.map fun e => rustToLower e.name) ∧
    (∀ i, f.by_name k = some i →
      (f.toc.map fun e => rustToLower e.name)[i]? = some k ∧
      ∀ j, i < j → (f.toc.map fun e => rustToLower e.name)[j]? ≠ some k) ∧
    (∀ (version : ErfVersion) (c i : Nat) (s0 : List Nat)
        (toc : List ErfTocEntry) (s1 : List Nat),
      parseEntries version c i s0 = .ok (toc, s1) → toc.length = c) := by
  have hbn := from_reader_by_name hf
  have hmapmap : (f.toc.map fun e => rustToLower e.name) =
      (f.toc.map ErfTocEntry.name).map rustToLower := by
    rw [List.map_map]; rfl
  refine ⟨?_, ?_, fun version c i s0 toc s1 h => parseEntries_length h⟩
  · rw [hbn, buildByName_apply, hmapmap, ← lastIdx?_isSome]
    cases h : lastIdx? k (f.toc.map ErfTocEntry.name) <;> simp
  · intro i hi
    rw [hbn, buildByName_apply] at hi
    cases h : lastIdx? k (f.toc.map ErfTocEntry.name) with
    | none => rw [h] at hi; exact absurd hi (by simp)
    | some j =>
      rw [h] at hi
      simp only [Option.some.injEq] at hi
      subst hi
      obtain ⟨h1, h2⟩ := lastIdx?_getElem h
      rw [hmapmap]
      exact ⟨h1, h2⟩

set_option maxRecDepth 40000 in
/-- Witness for claim C9: in `erfC9` the key `a.gda` resolves to index 1,
the later of the two entries spelling that name. -/
theorem C9_witness :
    (erfC9.toc.map fun e => rustToLower e.name)[1]? = some "a.gda".data ∧
    (erfC9.toc.map fun e => rustToLower e.name)[2]? ≠ some "a.gda".data :=
  ⟨((C9_lookup_invariant erfC9Bytes erfC9 rfl "a.gda".data).2.1 1 rfl).1,
   ((C9_lookup_invariant erfC9Bytes erfC9 rfl "a.gda".data).2.1 1 rfl).2 2
     (by decide)⟩

/-! ### Claim C10 -/

/-- Claim C10: conflict-key aggregation is case-sensitive — the
accumulator appends a path exactly at the literal key and touches no other
key, and in the concrete tree `fsC10` the loose file `Foo.gda` and the
archive entry `foo.gda` accumulate under two distinct single-path keys,
both of which the two-path threshold then drops, so no conflict is
reported between them. -/
theorem C10_case_sensitive_keys :
    (∀ (m : Conflicts) (key p k : Str), k ≠ key → addPath m key p k = m k) ∧
    (∀ (m : Conflicts) (key p : Str), addPath m key p key = m key ++ [p]) ∧
    (scanCore fsC10 "root".data).1 "Foo.gda".data =
      ["root/packages/core/override/Foo.gda".data] ∧
    (scanCore fsC10 "root".data).1 "foo.gda".data = ["root/a.erf".data] ∧
    finalizeConflicts (scanCore fsC10 "root".data).1 "Foo.gda".data = [] ∧
    finalizeConflicts (scanCore fsC10 "root".data).1 "foo.gda".data = [] := by
  refine ⟨fun m key p k h => ?_, fun m key p => ?_, by decide, by decide,
    by decide, by decide⟩
  · rw [addPath_apply, if_neg h]
  · rw [addPath_apply, if_pos rfl]

/-- Witness for claim C10: the key `foo.gda` is untouched by an insertion
at `Foo.gda`. -/
theorem C10_witness :
    addPath emptyConflicts "Foo.gda".data "x".data "foo.gda".data =
      emptyConflicts "foo.gda".data :=
  C10_case_sensitive_keys.1 emptyConflicts "Foo.gda".data "x".data
    "foo.gda".data (by decide)

end DAOScan
